import Mathlib

set_option maxRecDepth 4000

/-- Python whitespace characters, as recognized by `str.strip()` /
`str.isspace()` for the ASCII range used here. -/
def isPySpace (c : Char) : Bool :=
  c = ' ' || c = '\t' || c = '\n' || c = '\r' || c = '\x0b' || c = '\x0c'

/-- Python `s.strip()`: remove leading and trailing whitespace. -/
def pyStrip (s : List Char) : List Char :=
  ((s.dropWhile isPySpace).reverse.dropWhile isPySpace).reverse

/-- Python `s.startswith(pat)`. -/
def hasPre : List Char → List Char → Bool
  | [], _ => true
  | _ :: _, [] => false
  | p :: ps, c :: cs => if p = c then hasPre ps cs else false

/-- Python `s.split(pat, 1)[1]` (the text after the first occurrence of
`pat`), returning `none` when `pat` does not occur in `s`.  `none` thus
also decides Python's `pat in s` containment test. -/
def cutAfter (pat : List Char) : List Char → Option (List Char)
  | [] => none
  | c :: rest =>
    if hasPre pat (c :: rest) then some ((c :: rest).drop pat.length)
    else cutAfter pat rest

/-- Python `s.split(pat)[0]` (the text before the first occurrence of
`pat`), returning `none` when `pat` does not occur in `s`. -/
def cutBefore (pat : List Char) : List Char → Option (List Char)
  | [] => none
  | c :: rest =>
    if hasPre pat (c :: rest) then some []
    else (cutBefore pat rest).map (fun b => c :: b)

/-- Python `pat in s` (substring containment). -/
def pyContains (pat s : List Char) : Bool :=
  (cutAfter pat s).isSome

/-- Prepend `x` to the first block of a split result (helper for the
splitting functions below). -/
def conshd (x : List Char) : List (List Char) → List (List Char)
  | [] => [x]
  | y :: ys => (x ++ y) :: ys

/-- Python `s.split(sep)` for a single-character separator `sep`
(used by the source as `.split('\n')`). -/
def splitChar (sep : Char) : List Char → List (List Char)
  | [] => [[]]
  | c :: rest =>
    if c = sep then [] :: splitChar sep rest
    else conshd [c] (splitChar sep rest)

/-- Python `s.split('\n\n')`: split on the two-character separator,
scanning left to right without overlap (used by the source to separate the
question, options and answer sections). -/
def splitNN : List Char → List (List Char)
  | [] => [[]]
  | [c] => [[c]]
  | c1 :: c2 :: rest =>
    if c1 = '\n' && c2 = '\n' then [] :: splitNN rest
    else conshd [c1] (splitNN (c2 :: rest))

/-- Python `'\n'.join(lines)`. -/
def joinNl : List (List Char) → List Char
  | [] => []
  | [x] => x
  | x :: y :: ys => x ++ '\n' :: joinNl (y :: ys)

/-- The five rejection branches of the parsing section of
`generate_quiz_question`, identified by their log messages:
`"Invalid response format"`, `"Invalid question format"`,
`"Invalid number of options"`, `"Invalid correct answer format"`,
`"Invalid correct answer value"`. -/
inductive ParseFailure where
  | malformedStructure
  | malformedQuestion
  | invalidOptionCount
  | missingAnswerKey
  | invalidAnswerLetter
deriving DecidableEq, Repr

/-- The structured quiz value assembled by `generate_quiz_question` on
success: the returned tuple `(question, options, correct_index)`. -/
structure QuizQuestion where
  prompt : List Char
  options : List (List Char)
  correct_index : Nat
deriving DecidableEq, Repr

/-- The primary-language answer marker `"Correct:"`. -/
def engMarker : List Char := "Correct:".toList

/-- The secondary-language answer marker `"सही उत्तर:"`. -/
def hinMarker : List Char := "सही उत्तर:".toList

/-- One iteration of the source's option loop: the line qualifies when
`any(line.startswith(f"{chr(ord('A') + i)}) ") for i in range(4))` holds and
`option_text = line[3:].strip()` is non-empty and contains `'/'`; the
collected text is `option_text`. -/
def optionOf (line : List Char) : Option (List Char) :=
  if hasPre "A) ".toList line || hasPre "B) ".toList line ||
      hasPre "C) ".toList line || hasPre "D) ".toList line then
    if (!(pyStrip (line.drop 3)).isEmpty &&
        pyContains ['/'] (pyStrip (line.drop 3))) = true then
      some (pyStrip (line.drop 3))
    else none
  else none

/-- The source's reverse scan
`for line in reversed(option_lines): if line.startswith("Correct:") or
line.startswith("सही उत्तर:"): correct_line = line; break`. -/
def keyScan (lines : List (List Char)) : Option (List Char) :=
  lines.reverse.find? (fun l => hasPre engMarker l || hasPre hinMarker l)

/-- The marker-extraction step: `correct_line.split("Correct:", 1)[1].strip()`
when `"Correct:" in correct_line`, else the same with `"सही उत्तर:"`, else
the `"Invalid correct answer format"` rejection (`none`). -/
def answerValue (line : List Char) : Option (List Char) :=
  match cutAfter engMarker line with
  | some t => some (pyStrip t)
  | none =>
    match cutAfter hinMarker line with
    | some t => some (pyStrip t)
    | none => none

/-- One trailing-noise cut: `if c in s: s = s.split(c)[0].strip()`. -/
def cutStep (c : Char) (s : List Char) : List Char :=
  match cutBefore [c] s with
  | some b => pyStrip b
  | none => s

/-- The source's two trailing-noise cuts, in order: first on `"/"`, then on
`")"`. -/
def normalizeAnswer (v : List Char) : List Char :=
  cutStep ')' (cutStep '/' v)

/-- The source's `hindi_to_eng` letter translation table, applied when the
value is one of its four keys and leaving it unchanged otherwise. -/
def hindiToEng (s : List Char) : List Char :=
  if s = "ए".toList then ['A']
  else if s = "बी".toList then ['B']
  else if s = "सी".toList then ['C']
  else if s = "डी".toList then ['D']
  else s

/-- `parts = question_text.split('\n\n')`. -/
def partsOf (raw : List Char) : List (List Char) := splitNN raw

/-- `question_lines = parts[0].strip().split('\n')`. -/
def questionLinesOf (raw : List Char) : List (List Char) :=
  splitChar '\n' (pyStrip ((partsOf raw).headD []))

/-- `option_lines = parts[1].strip().split('\n')`. -/
def optionLinesOf (raw : List Char) : List (List Char) :=
  splitChar '\n' (pyStrip ((partsOf raw).getD 1 []))

/-- The collected `options` list. -/
def optionsOf (raw : List Char) : List (List Char) :=
  (optionLinesOf raw).filterMap optionOf

/-- `correct_line = parts[-1].strip() if len(parts) > 2 else
option_lines[-1].strip()` — the initial answer-line candidate before the
reverse scan. -/
def fallbackLine (raw : List Char) : List Char :=
  if (partsOf raw).length > 2 then pyStrip ((partsOf raw).getLastD [])
  else pyStrip ((optionLinesOf raw).getLastD [])

/-- The answer-line candidate actually used: the reverse-scan result when
the scan finds a matching line, otherwise the fallback. -/
def candidateLine (raw : List Char) : List Char :=
  (keyScan (optionLinesOf raw)).getD (fallbackLine raw)

/-- The final answer-validation step of the source: normalize the extracted
value, translate a Hindi letter name, reject unless the result is one of
`'A'`–`'D'`, and compute `correct_index = ord(correct_answer) - ord('A')`. -/
def finalize (question : List Char) (options : List (List Char))
    (v0 : List Char) : Except ParseFailure QuizQuestion :=
  if hindiToEng (normalizeAnswer v0) = ['A'] ∨
      hindiToEng (normalizeAnswer v0) = ['B'] ∨
      hindiToEng (normalizeAnswer v0) = ['C'] ∨
      hindiToEng (normalizeAnswer v0) = ['D'] then
    .ok ⟨question, options,
      ((hindiToEng (normalizeAnswer v0)).headD 'A').toNat - 'A'.toNat⟩
  else .error .invalidAnswerLetter

/-- The parsing section of `generate_quiz_question` (`quiz.py` 134–197),
from the raw response text to either the returned
`(question, options, correct_index)` tuple or the rejection branch taken. -/
def parse (raw : List Char) : Except ParseFailure QuizQuestion :=
  if (partsOf raw).length < 2 then .error .malformedStructure
  else if (questionLinesOf raw).length ≠ 2 then .error .malformedQuestion
  else if (optionsOf raw).length ≠ 4 then .error .invalidOptionCount
  else
    match answerValue (candidateLine raw) with
    | none => .error .missingAnswerKey
    | some v0 => finalize (joinNl (questionLinesOf raw)) (optionsOf raw) v0

/-- A minimal JSON value, the codomain of `json.load`. -/
inductive Json where
  | null
  | bool (b : Bool)
  | num (n : Int)
  | str (s : List Char)
  | arr (xs : List Json)
  | obj (fields : List (List Char × Json))

/-- The state of the backing file `asked_questions.json` as the source
distinguishes it: missing, present but not decodable as JSON, or present
with a decoded value. -/
inductive FileContent where
  | absent
  | invalidJson
  | validJson (j : Json)

/-- The empty store `{"questions": []}` created by `load_questions_db`. -/
def emptyStoreJson : Json := Json.obj [("questions".toList, Json.arr [])]

/-- `load_questions_db` (`quiz.py` 43–52): return the decoded JSON when the
file exists and decodes, and `{"questions": []}` when the file is absent or
`json.load` raises `json.JSONDecodeError`. -/
def load_questions_db : FileContent → Json
  | .absent => emptyStoreJson
  | .invalidJson => emptyStoreJson
  | .validJson j => j

/-- One record of the persisted store:
`{hash, question, date_added}` as appended by `save_question_to_db`. -/
structure DBRecord where
  hash : List Char
  question : List Char
  date_added : List Char
deriving DecidableEq, Repr

/-- The decoded store `{"questions": [...]}` that `save_question_to_db`
manipulates. -/
structure DB where
  questions : List DBRecord
deriving DecidableEq, Repr

/-- `save_question_to_db` (`quiz.py` 55–79) on the decoded store: hash the
question with `md5hex`, return `False` leaving the store unchanged when some
record already carries that hash, otherwise append
`{hash, question, date_added: now}` and return `True`.  (The reload from and
rewrite to disk around this logic are JSON round-trips through the backing
file.) -/
def save_question_to_db (md5hex : List Char → List Char) (now : List Char)
    (db : DB) (question : List Char) : DB × Bool :=
  let question_hash := md5hex question
  if db.questions.any (fun q => q.hash == question_hash) then (db, false)
  else ({ questions := db.questions ++ [⟨question_hash, question, now⟩] }, true)

/-- The payload `send_quiz` hands to `bot.send_poll`. -/
structure Payload where
  question : List Char
  options : List (List Char)
  correct_option_id : Nat
  explanation : List Char
deriving DecidableEq, Repr

/-- The explanation string `f"Correct answer: {chr(correct_index + ord('A'))}"`. -/
def explanationOf (i : Nat) : List Char :=
  "Correct answer: ".toList ++ [Char.ofNat (i + 'A'.toNat)]

/-- `send_quiz` (`quiz.py` 202–226), given the outcome of the parsing step:
skip when parsing failed or the `all([question, options, correct_index is
not None])` guard rejects; otherwise call `save_question_to_db` and send the
poll regardless of its result.  Returns the updated store and the payload
sent, if any. -/
def send_quiz (md5hex : List Char → List Char) (now : List Char) (db : DB)
    (parsed : Except ParseFailure QuizQuestion) : DB × Option Payload :=
  match parsed with
  | .error _ => (db, none)
  | .ok q =>
    if q.prompt.isEmpty || q.options.isEmpty then (db, none)
    else
      let r := save_question_to_db md5hex now db q.prompt
      (r.1, some ⟨q.prompt, q.options, q.correct_index,
        explanationOf q.correct_index⟩)

/-- A text with no `"\n\n"` occurrence and not ending in `'\n'`: appending
`"\n\n"` after it puts the first separator exactly at the boundary. -/
def sepFree : List Char → Bool
  | [] => true
  | [c] => !(c = '\n')
  | c1 :: c2 :: rest => !(c1 = '\n' && c2 = '\n') && sepFree (c2 :: rest)

/-- The documented response template: two question lines, a blank line,
four marked bilingual option lines, a blank line, and `"Correct: <L>"`. -/
def mkTemplate (q1 q2 o1 o2 o3 o4 : List Char) (L : Char) : List Char :=
  q1 ++ '\n' :: q2 ++ '\n' :: '\n' ::
    ("A) ".toList ++ o1 ++ '\n' ::
      ("B) ".toList ++ o2 ++ '\n' ::
        ("C) ".toList ++ o3 ++ '\n' ::
          ("D) ".toList ++ o4 ++ '\n' :: '\n' ::
            ("Correct: ".toList ++ [L])))))

/-- Side conditions under which a raw text is an instance of the documented
template: the question lines and options are non-empty, single-line and
already stripped, each option carries the `/` delimiter, and the announced
letter is one of A–D. -/
def templateOk (q1 q2 o1 o2 o3 o4 : List Char) (L : Char) : Prop :=
  (q1 ≠ [] ∧ '\n' ∉ q1 ∧ pyStrip q1 = q1) ∧
  (q2 ≠ [] ∧ '\n' ∉ q2 ∧ pyStrip q2 = q2) ∧
  ('\n' ∉ o1 ∧ pyStrip o1 = o1 ∧ '/' ∈ o1) ∧
  ('\n' ∉ o2 ∧ pyStrip o2 = o2 ∧ '/' ∈ o2) ∧
  ('\n' ∉ o3 ∧ pyStrip o3 = o3 ∧ '/' ∈ o3) ∧
  ('\n' ∉ o4 ∧ pyStrip o4 = o4 ∧ '/' ∈ o4) ∧
  (L = 'A' ∨ L = 'B' ∨ L = 'C' ∨ L = 'D')

instance templateOkDecidable (q1 q2 o1 o2 o3 o4 : List Char) (L : Char) :
    Decidable (templateOk q1 q2 o1 o2 o3 o4 L) := by
  unfold templateOk
  infer_instance

/-- The question section of the template. -/
def tQ (q1 q2 : List Char) : List Char := q1 ++ '\n' :: q2

/-- The options section of the template. -/
def tOB (o1 o2 o3 o4 : List Char) : List Char :=
  "A) ".toList ++ o1 ++ '\n' ::
    ("B) ".toList ++ o2 ++ '\n' ::
      ("C) ".toList ++ o3 ++ '\n' :: ("D) ".toList ++ o4)))

/-- The answer section of the template. -/
def tANS (L : Char) : List Char := "Correct: ".toList ++ [L]

/-- The end-to-end example input of the specification. -/
def exampleRaw : List Char :=
  ("Q1\nQ1-hi\n\nA) x / x-hi\nB) y / y-hi\nC) z / z-hi\nD) w / w-hi" ++
    "\n\nCorrect: C").toList

/-- A response whose options carry the slash without surrounding spaces. -/
def slashRaw : List Char :=
  "Q\nQh\n\nA) a/b\nB) c/d\nC) e/f\nD) g/h\n\nCorrect: A".toList

/-- A template instance whose answer key sits in the third section, so the
reverse scan over the options block finds nothing. -/
def c5Raw : List Char :=
  "Q\nQh\n\nA) p / q\nB) r / s\nC) t / u\nD) v / w\n\nCorrect: D".toList

/-- One cut of the claim's description: keep the text before the first
occurrence of `c` when `c` occurs, else leave the value unchanged. -/
def specCut (c : Char) (s : List Char) : List Char :=
  (cutBefore [c] s).getD s

/-- Modelled from the claim's wording for the normalization step: the value
after the marker is trimmed, cut before the first `'/'` if one is present,
then cut before the first `')'` if one is present, and trimmed again. -/
def specNormalizeAnswer (v : List Char) : List Char :=
  pyStrip (specCut ')' (specCut '/' (pyStrip v)))

theorem hasPre_iff (p s : List Char) : hasPre p s = true ↔ p <+: s := by
  induction p generalizing s with
  | nil => simp [hasPre]
  | cons a ps ih =>
    cases s with
    | nil => simp [hasPre]
    | cons c cs =>
      by_cases h : a = c
      · subst h
        simp [hasPre, ih, List.cons_prefix_cons]
      · simp [hasPre, h, List.cons_prefix_cons]

theorem hasPre_append_self (p x : List Char) : hasPre p (p ++ x) = true := by
  rw [hasPre_iff]
  exact ⟨x, rfl⟩

theorem cutAfter_append_self (pat x : List Char) (hp : pat ≠ []) :
    cutAfter pat (pat ++ x) = some x := by
  cases pat with
  | nil => exact absurd rfl hp
  | cons a ps =>
    have h : hasPre (a :: ps) (a :: (ps ++ x)) = true := by
      simpa using hasPre_append_self (a :: ps) x
    rw [List.cons_append, cutAfter, if_pos h]
    simp [List.drop_left]

theorem cutAfter_isSome_iff (pat s : List Char) (hp : pat ≠ []) :
    (cutAfter pat s).isSome = true ↔ pat <:+: s := by
  induction s with
  | nil =>
    simp [cutAfter]
    exact hp
  | cons c rest ih =>
    rw [cutAfter]
    by_cases h : hasPre pat (c :: rest) = true
    · rw [if_pos h]
      simp
      exact ((hasPre_iff pat (c :: rest)).1 h).isInfix
    · rw [if_neg h]
      rw [ih, List.infix_cons_iff]
      constructor
      · exact Or.inr
      · rintro (hpre | hinf)
        · exact absurd ((hasPre_iff pat (c :: rest)).2 hpre) h
        · exact hinf

theorem cutBefore_isSome_iff (pat s : List Char) (hp : pat ≠ []) :
    (cutBefore pat s).isSome = true ↔ pat <:+: s := by
  rw [← cutAfter_isSome_iff pat s hp]
  induction s with
  | nil => simp [cutAfter, cutBefore]
  | cons c rest ih =>
    rw [cutAfter, cutBefore]
    by_cases h : hasPre pat (c :: rest) = true
    · rw [if_pos h, if_pos h]
      simp
    · rw [if_neg h, if_neg h]
      simpa using ih

theorem pyContains_iff_isInfix (pat s : List Char) (hp : pat ≠ []) :
    pyContains pat s = true ↔ pat <:+: s :=
  cutAfter_isSome_iff pat s hp

theorem pyContains_single_iff (c : Char) (s : List Char) :
    pyContains [c] s = true ↔ c ∈ s := by
  rw [pyContains_iff_isInfix [c] s (by simp)]
  constructor
  · intro h
    exact h.mem (by simp)
  · intro h
    obtain ⟨l, r, rfl⟩ := List.append_of_mem h
    exact ⟨l, r, by simp⟩

theorem dropWhile_eq_self_of_head (p : Char → Bool) (s : List Char)
    (h : ∀ a, s.head? = some a → p a = false) : s.dropWhile p = s := by
  cases s with
  | nil => rfl
  | cons c cs => rw [List.dropWhile_cons, h c rfl]; simp

theorem head?_dropWhile_false (p : Char → Bool) (s : List Char) :
    ∀ a, (s.dropWhile p).head? = some a → p a = false := by
  induction s with
  | nil => intro a h; simp [List.dropWhile] at h
  | cons c cs ih =>
    intro a h
    rw [List.dropWhile_cons] at h
    by_cases hc : p c = true
    · rw [if_pos hc] at h; exact ih a h
    · rw [if_neg hc] at h
      simp at h
      rw [← h]
      simpa using hc

theorem head?_of_pre {l1 l2 : List Char} (h : l1 <+: l2) {a : Char}
    (ha : l1.head? = some a) : l2.head? = some a := by
  obtain ⟨t, rfl⟩ := h
  cases l1 with
  | nil => simp at ha
  | cons b bs => simpa using ha

theorem suffix_reverse_pre {l1 l2 : List Char} (h : List.IsSuffix l1 l2) :
    l1.reverse <+: l2.reverse := by
  obtain ⟨u, rfl⟩ := h
  exact ⟨u.reverse, by rw [List.reverse_append]⟩

theorem pyStrip_pre_dropWhile (s : List Char) :
    pyStrip s <+: s.dropWhile isPySpace := by
  have hsuf : List.IsSuffix ((s.dropWhile isPySpace).reverse.dropWhile isPySpace)
      (s.dropWhile isPySpace).reverse := List.dropWhile_suffix isPySpace
  have h := suffix_reverse_pre hsuf
  rwa [List.reverse_reverse] at h

theorem pyStrip_head (s : List Char) :
    ∀ a, (pyStrip s).head? = some a → isPySpace a = false := by
  intro a ha
  exact head?_dropWhile_false isPySpace s a (head?_of_pre (pyStrip_pre_dropWhile s) ha)

theorem pyStrip_getLast (s : List Char) :
    ∀ a, (pyStrip s).getLast? = some a → isPySpace a = false := by
  intro a ha
  rw [← List.head?_reverse, pyStrip, List.reverse_reverse] at ha
  exact head?_dropWhile_false isPySpace _ a ha

theorem pyStrip_eq_self (s : List Char)
    (h1 : ∀ a, s.head? = some a → isPySpace a = false)
    (h2 : ∀ a, s.getLast? = some a → isPySpace a = false) : pyStrip s = s := by
  unfold pyStrip
  rw [dropWhile_eq_self_of_head _ _ h1]
  rw [dropWhile_eq_self_of_head _ _
    (by intro a ha; exact h2 a (by rwa [List.head?_reverse] at ha))]
  exact List.reverse_reverse s

theorem pyStrip_idem (s : List Char) : pyStrip (pyStrip s) = pyStrip s :=
  pyStrip_eq_self _ (pyStrip_head s) (pyStrip_getLast s)

theorem pyStrip_sublist (s : List Char) : List.Sublist (pyStrip s) s := by
  have h1 : List.Sublist ((s.dropWhile isPySpace).reverse.dropWhile isPySpace)
      (s.dropWhile isPySpace).reverse := List.dropWhile_sublist isPySpace
  have h2 := h1.reverse
  rw [List.reverse_reverse] at h2
  exact h2.trans (List.dropWhile_sublist isPySpace)

theorem mem_dropWhile_of_not (p : Char → Bool) (c : Char) (l : List Char)
    (hc : p c = false) (h : c ∈ l) : c ∈ l.dropWhile p := by
  rw [← List.takeWhile_append_dropWhile p l] at h
  rcases List.mem_append.1 h with h1 | h2
  · have := List.mem_takeWhile_imp h1
    rw [hc] at this
    exact absurd this (by simp)
  · exact h2

theorem mem_pyStrip_iff (c : Char) (hc : isPySpace c = false) (s : List Char) :
    c ∈ pyStrip s ↔ c ∈ s := by
  constructor
  · intro h
    exact (pyStrip_sublist s).mem h
  · intro h
    unfold pyStrip
    rw [List.mem_reverse]
    apply mem_dropWhile_of_not _ _ _ hc
    rw [List.mem_reverse]
    exact mem_dropWhile_of_not _ _ _ hc h

theorem dropWhile_ws_append (w t : List Char) (hw : ∀ x ∈ w, isPySpace x = true) :
    (w ++ t).dropWhile isPySpace = t.dropWhile isPySpace := by
  induction w with
  | nil => rfl
  | cons a w' ih =>
    rw [List.cons_append, List.dropWhile_cons, hw a (by simp)]
    exact ih (fun x hx => hw x (by simp [hx]))

theorem pyStrip_ws_append (w t : List Char) (hw : ∀ x ∈ w, isPySpace x = true) :
    pyStrip (w ++ t) = pyStrip t := by
  unfold pyStrip
  rw [dropWhile_ws_append w t hw]

theorem pyStrip_decomp (s : List Char) :
    ∃ w1 w2, (∀ x ∈ w1, isPySpace x = true) ∧ (∀ x ∈ w2, isPySpace x = true) ∧
      s = w1 ++ (pyStrip s ++ w2) := by
  refine ⟨s.takeWhile isPySpace, ((s.dropWhile isPySpace).reverse.takeWhile isPySpace).reverse,
    fun x hx => List.mem_takeWhile_imp hx,
    fun x hx => List.mem_takeWhile_imp (List.mem_reverse.1 hx), ?_⟩
  conv_lhs => rw [← List.takeWhile_append_dropWhile isPySpace s]
  congr 1
  conv_lhs => rw [← List.reverse_reverse (s.dropWhile isPySpace),
    ← List.takeWhile_append_dropWhile isPySpace (s.dropWhile isPySpace).reverse]
  rw [List.reverse_append]
  rfl

theorem cutBefore_single_isSome (c : Char) (s : List Char) :
    (cutBefore [c] s).isSome = true ↔ c ∈ s := by
  rw [cutBefore_isSome_iff [c] s (by simp)]
  constructor
  · intro h
    exact h.mem (by simp)
  · intro h
    obtain ⟨l, r, rfl⟩ := List.append_of_mem h
    exact ⟨l, r, by simp⟩

theorem hasPre_single (c a : Char) (rest : List Char) :
    hasPre [c] (a :: rest) = if c = a then true else false := by
  by_cases h : c = a
  · simp [hasPre, h]
  · simp [hasPre, h]

theorem cutBefore_ws_append (c : Char) (hc : isPySpace c = false)
    (w t : List Char) (hw : ∀ x ∈ w, isPySpace x = true) :
    cutBefore [c] (w ++ t) = (cutBefore [c] t).map (fun b => w ++ b) := by
  induction w with
  | nil => simp
  | cons a w' ih =>
    have hca : c ≠ a := by
      intro h
      rw [h] at hc
      rw [hw a (by simp)] at hc
      exact absurd hc (by simp)
    rw [List.cons_append, cutBefore, hasPre_single, if_neg hca, if_neg (by simp)]
    rw [ih (fun x hx => hw x (by simp [hx]))]
    cases cutBefore [c] t <;> simp

theorem cutBefore_append_of_mem (c : Char) (u w : List Char) (hm : c ∈ u) :
    cutBefore [c] (u ++ w) = cutBefore [c] u := by
  induction u with
  | nil => simp at hm
  | cons a u' ih =>
    by_cases h : c = a
    · subst h
      rw [List.cons_append, cutBefore, cutBefore, hasPre_single, hasPre_single]
      simp
    · have hm' : c ∈ u' := by
        rcases List.mem_cons.1 hm with h1 | h2
        · exact absurd h1 h
        · exact h2
      rw [List.cons_append, cutBefore, cutBefore, hasPre_single, hasPre_single, if_neg h]
      simp [ih hm']

/-- Key commutation fact: for a non-whitespace character `c` occurring in
`s`, cutting before the first `c` commutes (up to a final strip) with
stripping `s` first.  This is what makes the source's
strip-cut-strip-cut-strip chain equal to the specification's
strip-cut-cut-strip chain. -/
theorem cutBefore_pyStrip_comm (c : Char) (hc : isPySpace c = false)
    (s : List Char) (hm : c ∈ s) :
    ∃ b1 b2, cutBefore [c] (pyStrip s) = some b1 ∧ cutBefore [c] s = some b2 ∧
      pyStrip b2 = pyStrip b1 := by
  obtain ⟨w1, w2, hw1, hw2, hs⟩ := pyStrip_decomp s
  have hm' : c ∈ pyStrip s := (mem_pyStrip_iff c hc s).2 hm
  obtain ⟨b1, hb1⟩ := Option.isSome_iff_exists.1 ((cutBefore_single_isSome c (pyStrip s)).2 hm')
  refine ⟨b1, w1 ++ b1, hb1, ?_, pyStrip_ws_append w1 b1 hw1⟩
  conv_lhs => rw [hs]
  rw [cutBefore_ws_append c hc w1 _ hw1, cutBefore_append_of_mem c (pyStrip s) w2 hm', hb1]
  rfl

@[simp] theorem conshd_nil (x : List Char) : conshd x [] = [x] := rfl

@[simp] theorem conshd_cons (x y : List Char) (ys : List (List Char)) :
    conshd x (y :: ys) = (x ++ y) :: ys := rfl

theorem conshd_conshd (c : Char) (a : List Char) (l : List (List Char)) :
    conshd [c] (conshd a l) = conshd (c :: a) l := by
  cases l <;> simp

theorem splitChar_ne_nil (sep : Char) (s : List Char) : splitChar sep s ≠ [] := by
  cases s with
  | nil => simp [splitChar]
  | cons c rest =>
    rw [splitChar]
    by_cases h : c = sep
    · simp [h]
    · rw [if_neg h]
      cases splitChar sep rest <;> simp

theorem splitNN_ne_nil : ∀ s : List Char, splitNN s ≠ []
  | [] => by simp [splitNN]
  | [c] => by simp [splitNN]
  | c1 :: c2 :: rest => by
    rw [splitNN]
    by_cases h : (c1 = '\n' && c2 = '\n') = true
    · simp [h]
    · rw [if_neg h]
      cases splitNN (c2 :: rest) <;> simp

theorem splitChar_append (sep : Char) (a t : List Char) (ha : sep ∉ a) :
    splitChar sep (a ++ t) = conshd a (splitChar sep t) := by
  induction a with
  | nil =>
    obtain ⟨y, ys, hy⟩ := List.exists_cons_of_ne_nil (splitChar_ne_nil sep t)
    simp [hy]
  | cons c a' ih =>
    have hc : ¬ c = sep := fun h => ha (by simp [h])
    rw [List.cons_append, splitChar, if_neg hc, ih (fun h => ha (by simp [h])),
      conshd_conshd]

theorem splitChar_single (sep : Char) (a : List Char) (ha : sep ∉ a) :
    splitChar sep a = [a] := by
  have h := splitChar_append sep a [] ha
  rw [List.append_nil] at h
  rw [h]
  simp [splitChar]

theorem splitNN_append : ∀ a t : List Char, '\n' ∉ a →
    splitNN (a ++ t) = conshd a (splitNN t)
  | [], t, _ => by
    obtain ⟨y, ys, hy⟩ := List.exists_cons_of_ne_nil (splitNN_ne_nil t)
    simp [hy]
  | [c], t, ha => by
    have hc : ¬ c = '\n' := fun h => ha (by simp [h])
    cases t with
    | nil => simp [splitNN]
    | cons d t' =>
      rw [List.singleton_append, splitNN, if_neg (by simp [hc])]
  | c1 :: c2 :: a', t, ha => by
    have hc : ¬ c1 = '\n' := fun h => ha (by simp [h])
    rw [List.cons_append, List.cons_append, splitNN, if_neg (by simp [hc]),
      ← List.cons_append, splitNN_append (c2 :: a') t (fun h => ha (by simp at h; simp [h])),
      conshd_conshd]

theorem splitNN_single (a : List Char) (ha : '\n' ∉ a) : splitNN a = [a] := by
  have h := splitNN_append a [] ha
  rw [List.append_nil] at h
  rw [h]
  simp [splitNN]

theorem splitNN_sep (b : List Char) :
    splitNN ('\n' :: '\n' :: b) = [] :: splitNN b := by
  rw [splitNN]
  simp

theorem splitChar_first_pre (sep : Char) (s : List Char) :
    ∃ y ys, splitChar sep s = y :: ys ∧ y <+: s := by
  induction s with
  | nil => exact ⟨[], [], rfl, List.nil_prefix⟩
  | cons c rest ih =>
    obtain ⟨y, ys, hy, hpre⟩ := ih
    by_cases h : c = sep
    · exact ⟨[], splitChar sep rest, by rw [splitChar, if_pos h], List.nil_prefix⟩
    · refine ⟨c :: y, ys, ?_, ?_⟩
      · rw [splitChar, if_neg h, hy]
        simp
      · exact List.cons_prefix_cons.2 ⟨rfl, hpre⟩

theorem mem_splitChar_isInfix (sep : Char) (s : List Char) :
    ∀ t ∈ splitChar sep s, t <:+: s := by
  induction s with
  | nil =>
    intro t ht
    simp [splitChar] at ht
    simp [ht]
  | cons c rest ih =>
    intro t ht
    by_cases h : c = sep
    · rw [splitChar, if_pos h] at ht
      rcases List.mem_cons.1 ht with h1 | h2
      · simp [h1]
      · exact List.infix_cons_iff.2 (Or.inr (ih t h2))
    · rw [splitChar, if_neg h] at ht
      obtain ⟨y, ys, hy, hpre⟩ := splitChar_first_pre sep rest
      rw [hy] at ht
      simp at ht
      rcases ht with h1 | h2
      · rw [h1]
        exact (List.cons_prefix_cons.2 ⟨rfl, hpre⟩).isInfix
      · exact List.infix_cons_iff.2 (Or.inr (ih t (by rw [hy]; simp [h2])))

theorem splitNN_first_pre : ∀ s : List Char,
    ∃ y ys, splitNN s = y :: ys ∧ y <+: s
  | [] => ⟨[], [], rfl, List.nil_prefix⟩
  | [c] => ⟨[c], [], rfl, List.prefix_refl [c]⟩
  | c1 :: c2 :: rest => by
    by_cases h : (c1 = '\n' && c2 = '\n') = true
    · exact ⟨[], splitNN rest, by rw [splitNN, if_pos h], List.nil_prefix⟩
    · obtain ⟨y, ys, hy, hpre⟩ := splitNN_first_pre (c2 :: rest)
      refine ⟨c1 :: y, ys, ?_, List.cons_prefix_cons.2 ⟨rfl, hpre⟩⟩
      rw [splitNN, if_neg h, hy]
      simp

theorem mem_splitNN_isInfix : ∀ (s : List Char), ∀ t ∈ splitNN s, t <:+: s
  | [] => by
    intro t ht
    simp [splitNN] at ht
    simp [ht]
  | [c] => by
    intro t ht
    simp [splitNN] at ht
    simp [ht]
  | c1 :: c2 :: rest => by
    intro t ht
    by_cases h : (c1 = '\n' && c2 = '\n') = true
    · rw [splitNN, if_pos h] at ht
      rcases List.mem_cons.1 ht with h1 | h2
      · simp [h1]
      · exact List.infix_cons_iff.2 (Or.inr (List.infix_cons_iff.2
          (Or.inr (mem_splitNN_isInfix rest t h2))))
    · rw [splitNN, if_neg h] at ht
      obtain ⟨y, ys, hy, hpre⟩ := splitNN_first_pre (c2 :: rest)
      rw [hy] at ht
      simp at ht
      rcases ht with h1 | h2
      · rw [h1]
        exact (List.cons_prefix_cons.2 ⟨rfl, hpre⟩).isInfix
      · exact List.infix_cons_iff.2
          (Or.inr (mem_splitNN_isInfix (c2 :: rest) t (by rw [hy]; simp [h2])))

theorem pyStrip_isInfix (s : List Char) : pyStrip s <:+: s :=
  (pyStrip_pre_dropWhile s).isInfix.trans (List.dropWhile_suffix isPySpace).isInfix

/-- C7: recording the same question text twice is idempotent — the second
call to `save_question_to_db` reports `was_new = false` and leaves the store
exactly as it was after the first call. -/
theorem save_question_idempotent (md5hex : List Char → List Char)
    (n1 n2 : List Char) (db : DB) (x : List Char) :
    save_question_to_db md5hex n2 (save_question_to_db md5hex n1 db x).1 x =
      ((save_question_to_db md5hex n1 db x).1, false) := by
  unfold save_question_to_db
  by_cases h : db.questions.any (fun q => q.hash == md5hex x) = true
  · simp [h]
  · simp [h]

/-- C8: `load_questions_db` returns the empty store `{"questions": []}`
when the backing file is absent and when its content fails JSON decoding
(`json.JSONDecodeError` is caught), and passes a decoded value through
unchanged; as a total function it raises nothing. -/
theorem load_questions_db_resilient :
    load_questions_db .absent = emptyStoreJson ∧
    load_questions_db .invalidJson = emptyStoreJson ∧
    ∀ j, load_questions_db (.validJson j) = j :=
  ⟨rfl, rfl, fun _ => rfl⟩

/-- C9: `save_question_to_db` preserves pairwise-distinct hashes: insertion
only happens after the check-before-insert scan finds no record with the
question's hash. -/
theorem save_question_preserves_hash_nodup (md5hex : List Char → List Char)
    (now : List Char) (db : DB) (x : List Char)
    (h : (db.questions.map (fun r => r.hash)).Nodup) :
    (((save_question_to_db md5hex now db x).1).questions.map
      (fun r => r.hash)).Nodup := by
  unfold save_question_to_db
  by_cases hdup : db.questions.any (fun q => q.hash == md5hex x) = true
  · simpa [hdup] using h
  · have hni : md5hex x ∉ db.questions.map (fun r => r.hash) := by
      intro hmem
      obtain ⟨r, hr, hrh⟩ := List.mem_map.1 hmem
      apply hdup
      rw [List.any_eq_true]
      exact ⟨r, hr, by rw [hrh]; exact beq_self_eq_true _⟩
    simp [hdup, List.nodup_append, h, hni]

/-- Witness for C9 at a concrete store and hash function. -/
theorem save_question_preserves_hash_nodup_witness :
    (((save_question_to_db (fun s => s) [] ⟨[]⟩ ['q']).1).questions.map
      (fun r => r.hash)).Nodup :=
  save_question_preserves_hash_nodup (fun s => s) [] ⟨[]⟩ ['q'] (by simp)

/-- C10: deduplication is advisory — the payload `send_quiz` hands to
`bot.send_poll` is independent of the store, the hash function and the
timestamp (hence of whether `save_question_to_db` returned `True` or
`False`), and for an accepted question it is exactly the parsed question,
options, correct index and derived explanation. -/
theorem send_quiz_advisory :
    (∀ (md5a md5b : List Char → List Char) (na nb : List Char) (dba dbb : DB)
      (parsed : Except ParseFailure QuizQuestion),
      (send_quiz md5a na dba parsed).2 = (send_quiz md5b nb dbb parsed).2) ∧
    (∀ (md5hex : List Char → List Char) (now : List Char) (db : DB)
      (q : QuizQuestion), q.prompt ≠ [] → q.options ≠ [] →
      (send_quiz md5hex now db (.ok q)).2 =
        some ⟨q.prompt, q.options, q.correct_index,
          explanationOf q.correct_index⟩) := by
  constructor
  · intro md5a md5b na nb dba dbb parsed
    cases parsed with
    | error e => rfl
    | ok q =>
      unfold send_quiz
      by_cases h : (q.prompt.isEmpty || q.options.isEmpty) = true
      · simp [h]
      · simp [h]
  · intro md5hex now db q h1 h2
    unfold send_quiz
    have hg : (q.prompt.isEmpty || q.options.isEmpty) = false := by
      simp [List.isEmpty_iff, h1, h2]
    simp [hg]

/-- Witness for C10 at a concrete question. -/
theorem send_quiz_advisory_witness :
    (send_quiz (fun s => s) [] ⟨[]⟩ (.ok ⟨['q'], [['a']], 0⟩)).2 =
      some ⟨['q'], [['a']], 0, explanationOf 0⟩ :=
  send_quiz_advisory.2 (fun s => s) [] ⟨[]⟩ ⟨['q'], [['a']], 0⟩
    (by simp) (by simp)

theorem sepFree_of_not_mem : ∀ a : List Char, '\n' ∉ a → sepFree a = true
  | [], _ => rfl
  | [c], h => by simp [sepFree]; intro hc; exact h (by simp [hc])
  | c1 :: c2 :: r, h => by
    rw [sepFree]
    have h1 : ¬ c1 = '\n' := fun hc => h (by simp [hc])
    rw [sepFree_of_not_mem (c2 :: r) (fun hc => h (List.mem_cons_of_mem c1 hc))]
    simp [h1]

theorem sepFree_glue : ∀ (a : List Char) (c : Char) (b : List Char),
    '\n' ∉ a → c ≠ '\n' → sepFree (c :: b) = true →
    sepFree (a ++ '\n' :: c :: b) = true
  | [], c, b, _, hc, hb => by
    rw [List.nil_append, sepFree]
    simp [hc, hb]
  | [x], c, b, ha, hc, hb => by
    have hx : ¬ x = '\n' := fun h => ha (by simp [h])
    have hrec := sepFree_glue [] c b (by simp) hc hb
    rw [List.nil_append] at hrec
    rw [List.singleton_append, sepFree, hrec]
    simp [hx]
  | x1 :: x2 :: a', c, b, ha, hc, hb => by
    have hx : ¬ x1 = '\n' := fun h => ha (by simp [h])
    rw [List.cons_append, List.cons_append, sepFree, ← List.cons_append,
      sepFree_glue (x2 :: a') c b (fun h => ha (List.mem_cons_of_mem x1 h)) hc hb]
    simp [hx]

theorem splitNN_sepFree_append : ∀ X Y : List Char, sepFree X = true →
    splitNN (X ++ '\n' :: '\n' :: Y) = X :: splitNN Y
  | [], Y, _ => by rw [List.nil_append, splitNN_sep]
  | [c], Y, h => by
    have hc : ¬ c = '\n' := by simpa [sepFree] using h
    rw [List.singleton_append, splitNN, if_neg (by simp [hc]), splitNN_sep]
    simp
  | c1 :: c2 :: X', Y, h => by
    rw [sepFree] at h
    rcases Bool.and_eq_true .. |>.mp h with ⟨h1, h2⟩
    have h1n : ¬ (c1 = '\n' && c2 = '\n') = true := by
      simp only [Bool.not_eq_true'] at h1
      simp [h1]
    rw [List.cons_append, List.cons_append, splitNN, if_neg h1n,
      ← List.cons_append, splitNN_sepFree_append (c2 :: X') Y h2]
    simp

theorem chars_mA : "A) ".toList = ['A', ')', ' '] := rfl

theorem chars_mB : "B) ".toList = ['B', ')', ' '] := rfl

theorem chars_mC : "C) ".toList = ['C', ')', ' '] := rfl

theorem chars_mD : "D) ".toList = ['D', ')', ' '] := rfl

theorem chars_eng : engMarker = ['C', 'o', 'r', 'r', 'e', 'c', 't', ':'] := rfl

theorem chars_hin :
    hinMarker = ['स', 'ह', 'ी', ' ', 'उ', 'त', '्', 'त', 'र', ':'] := rfl

theorem chars_correct_sp : "Correct: ".toList = engMarker ++ [' '] := rfl

theorem stripped_head_facts (s : List Char) (h : pyStrip s = s) :
    ∀ a, s.head? = some a → isPySpace a = false := by
  intro a ha
  exact pyStrip_head s a (by rwa [h])

theorem stripped_last_facts (s : List Char) (h : pyStrip s = s) :
    ∀ a, s.getLast? = some a → isPySpace a = false := by
  intro a ha
  exact pyStrip_getLast s a (by rwa [h])

theorem pyStrip_eq_self_ends (a m b : List Char) (ha : pyStrip a = a)
    (han : a ≠ []) (hb : pyStrip b = b) (hbn : b ≠ []) :
    pyStrip (a ++ (m ++ b)) = a ++ (m ++ b) := by
  apply pyStrip_eq_self
  · intro x hx
    cases a with
    | nil => exact absurd rfl han
    | cons c cs =>
      simp at hx
      exact stripped_head_facts _ ha x (by simp [← hx])
  · intro x hx
    rw [List.getLast?_append_of_ne_nil a (by simp [hbn]),
      List.getLast?_append_of_ne_nil m hbn] at hx
    exact stripped_last_facts b hb x hx

theorem optionOf_good (X : Char) (o : List Char)
    (hX : X = 'A' ∨ X = 'B' ∨ X = 'C' ∨ X = 'D') (ho : '/' ∈ o) :
    optionOf (X :: ')' :: ' ' :: o) = some (pyStrip o) := by
  have hmem : '/' ∈ pyStrip o := (mem_pyStrip_iff '/' (by decide) o).2 ho
  have hne : pyStrip o ≠ [] := List.ne_nil_of_mem hmem
  have hcond : (!(pyStrip o).isEmpty && pyContains ['/'] (pyStrip o)) = true := by
    rw [(pyContains_single_iff '/' (pyStrip o)).2 hmem]
    simp [List.isEmpty_iff, hne]
  rcases hX with rfl | rfl | rfl | rfl <;>
    simp [optionOf, chars_mA, chars_mB, chars_mC, chars_mD, hasPre, hcond]

theorem mkTemplate_eq (q1 q2 o1 o2 o3 o4 : List Char) (L : Char) :
    mkTemplate q1 q2 o1 o2 o3 o4 L =
      tQ q1 q2 ++ '\n' :: '\n' ::
        (tOB o1 o2 o3 o4 ++ '\n' :: '\n' :: tANS L) := by
  simp [mkTemplate, tQ, tOB, tANS, List.append_assoc]

theorem sepFree_tQ (q1 q2 : List Char) (h1 : '\n' ∉ q1) (h2 : '\n' ∉ q2)
    (hn : q2 ≠ []) : sepFree (tQ q1 q2) = true := by
  obtain ⟨x, q2', rfl⟩ := List.exists_cons_of_ne_nil hn
  exact sepFree_glue q1 x q2' h1 (fun hx => h2 (by simp [hx]))
    (sepFree_of_not_mem _ h2)

theorem sepFree_tOB (o1 o2 o3 o4 : List Char) (h1 : '\n' ∉ o1)
    (h2 : '\n' ∉ o2) (h3 : '\n' ∉ o3) (h4 : '\n' ∉ o4) :
    sepFree (tOB o1 o2 o3 o4) = true := by
  have s4 : sepFree ('D' :: ')' :: ' ' :: o4) = true :=
    sepFree_of_not_mem _ (by simp [h4])
  have s3 : sepFree (("C) ".toList ++ o3) ++ '\n' :: 'D' :: ')' :: ' ' :: o4) = true :=
    sepFree_glue _ 'D' _ (by simp [chars_mC, h3]) (by decide) s4
  have s3' : sepFree ('C' :: ')' :: ' ' ::
      (o3 ++ '\n' :: 'D' :: ')' :: ' ' :: o4)) = true := by
    simpa [chars_mC, List.append_assoc] using s3
  have s2 : sepFree (("B) ".toList ++ o2) ++ '\n' :: 'C' :: ')' :: ' ' ::
      (o3 ++ '\n' :: 'D' :: ')' :: ' ' :: o4)) = true :=
    sepFree_glue _ 'C' _ (by simp [chars_mB, h2]) (by decide) s3'
  have s2' : sepFree ('B' :: ')' :: ' ' :: (o2 ++ '\n' :: 'C' :: ')' :: ' ' ::
      (o3 ++ '\n' :: 'D' :: ')' :: ' ' :: o4))) = true := by
    simpa [chars_mB, List.append_assoc] using s2
  have s1 : sepFree (("A) ".toList ++ o1) ++ '\n' :: 'B' :: ')' :: ' ' ::
      (o2 ++ '\n' :: 'C' :: ')' :: ' ' ::
        (o3 ++ '\n' :: 'D' :: ')' :: ' ' :: o4))) = true :=
    sepFree_glue _ 'B' _ (by simp [chars_mA, h1]) (by decide) s2'
  have hsh : tOB o1 o2 o3 o4 = ("A) ".toList ++ o1) ++ '\n' :: 'B' :: ')' :: ' ' ::
      (o2 ++ '\n' :: 'C' :: ')' :: ' ' ::
        (o3 ++ '\n' :: 'D' :: ')' :: ' ' :: o4)) := by
    simp [tOB, chars_mB, chars_mC, chars_mD, List.append_assoc]
  rw [hsh]
  exact s1

theorem mkTemplate_parts (q1 q2 o1 o2 o3 o4 : List Char) (L : Char)
    (h : templateOk q1 q2 o1 o2 o3 o4 L) :
    partsOf (mkTemplate q1 q2 o1 o2 o3 o4 L) =
      [tQ q1 q2, tOB o1 o2 o3 o4, tANS L] := by
  obtain ⟨⟨hq1n, hq1nl, hq1s⟩, ⟨hq2n, hq2nl, hq2s⟩, ⟨ho1nl, ho1s, ho1m⟩,
    ⟨ho2nl, ho2s, ho2m⟩, ⟨ho3nl, ho3s, ho3m⟩, ⟨ho4nl, ho4s, ho4m⟩, hL⟩ := h
  have hLn : ('\n' : Char) ∉ tANS L := by
    rcases hL with rfl | rfl | rfl | rfl <;> decide
  unfold partsOf
  rw [mkTemplate_eq,
    splitNN_sepFree_append _ _ (sepFree_tQ q1 q2 hq1nl hq2nl hq2n),
    splitNN_sepFree_append _ _ (sepFree_tOB o1 o2 o3 o4 ho1nl ho2nl ho3nl ho4nl),
    splitNN_single _ hLn]

theorem splitChar_line (a rest : List Char) (ha : '\n' ∉ a) :
    splitChar '\n' (a ++ '\n' :: rest) = a :: splitChar '\n' rest := by
  rw [splitChar_append '\n' a _ ha, splitChar, if_pos rfl]
  cases splitChar '\n' rest <;> simp

theorem pyStrip_tQ (q1 q2 : List Char) (hq1s : pyStrip q1 = q1)
    (hq1n : q1 ≠ []) (hq2s : pyStrip q2 = q2) (hq2n : q2 ≠ []) :
    pyStrip (tQ q1 q2) = tQ q1 q2 := by
  have h := pyStrip_eq_self_ends q1 ['\n'] q2 hq1s hq1n hq2s hq2n
  simpa [tQ] using h

theorem mkTemplate_questionLines (q1 q2 o1 o2 o3 o4 : List Char) (L : Char)
    (h : templateOk q1 q2 o1 o2 o3 o4 L) :
    questionLinesOf (mkTemplate q1 q2 o1 o2 o3 o4 L) = [q1, q2] := by
  obtain ⟨⟨hq1n, hq1nl, hq1s⟩, ⟨hq2n, hq2nl, hq2s⟩, _, _, _, _, _⟩ := id h
  unfold questionLinesOf
  rw [mkTemplate_parts q1 q2 o1 o2 o3 o4 L h]
  show splitChar '\n' (pyStrip (tQ q1 q2)) = [q1, q2]
  rw [pyStrip_tQ q1 q2 hq1s hq1n hq2s hq2n]
  unfold tQ
  rw [splitChar_line q1 _ hq1nl, splitChar_single '\n' q2 hq2nl]

theorem pyStrip_tOB (o1 o2 o3 o4 : List Char) (ho4s : pyStrip o4 = o4)
    (ho4n : o4 ≠ []) : pyStrip (tOB o1 o2 o3 o4) = tOB o1 o2 o3 o4 := by
  have hsh : tOB o1 o2 o3 o4 = ['A'] ++ ((')' :: ' ' ::
      (o1 ++ '\n' :: 'B' :: ')' :: ' ' ::
        (o2 ++ '\n' :: 'C' :: ')' :: ' ' ::
          (o3 ++ '\n' :: ['D', ')', ' '])))) ++ o4) := by
    simp [tOB, chars_mA, chars_mB, chars_mC, chars_mD, List.append_assoc]
  rw [hsh]
  exact pyStrip_eq_self_ends ['A'] _ o4 (by decide) (by simp) ho4s ho4n

theorem mkTemplate_optionLines (q1 q2 o1 o2 o3 o4 : List Char) (L : Char)
    (h : templateOk q1 q2 o1 o2 o3 o4 L) :
    optionLinesOf (mkTemplate q1 q2 o1 o2 o3 o4 L) =
      ['A' :: ')' :: ' ' :: o1, 'B' :: ')' :: ' ' :: o2,
       'C' :: ')' :: ' ' :: o3, 'D' :: ')' :: ' ' :: o4] := by
  obtain ⟨_, _, ⟨ho1nl, ho1s, ho1m⟩, ⟨ho2nl, ho2s, ho2m⟩,
    ⟨ho3nl, ho3s, ho3m⟩, ⟨ho4nl, ho4s, ho4m⟩, _⟩ := id h
  unfold optionLinesOf
  rw [mkTemplate_parts q1 q2 o1 o2 o3 o4 L h]
  show splitChar '\n' (pyStrip (tOB o1 o2 o3 o4)) =
    ['A' :: ')' :: ' ' :: o1, 'B' :: ')' :: ' ' :: o2,
     'C' :: ')' :: ' ' :: o3, 'D' :: ')' :: ' ' :: o4]
  rw [pyStrip_tOB o1 o2 o3 o4 ho4s (List.ne_nil_of_mem ho4m)]
  have hsh : tOB o1 o2 o3 o4 = ("A) ".toList ++ o1) ++ '\n' ::
      (("B) ".toList ++ o2) ++ '\n' ::
        (("C) ".toList ++ o3) ++ '\n' :: ("D) ".toList ++ o4))) := by
    simp [tOB, List.append_assoc]
  rw [hsh, splitChar_line _ _ (by simp [chars_mA, ho1nl]),
    splitChar_line _ _ (by simp [chars_mB, ho2nl]),
    splitChar_line _ _ (by simp [chars_mC, ho3nl]),
    splitChar_single '\n' _ (by simp [chars_mD, ho4nl])]
  simp [chars_mA, chars_mB, chars_mC, chars_mD]

theorem mkTemplate_options (q1 q2 o1 o2 o3 o4 : List Char) (L : Char)
    (h : templateOk q1 q2 o1 o2 o3 o4 L) :
    optionsOf (mkTemplate q1 q2 o1 o2 o3 o4 L) = [o1, o2, o3, o4] := by
  obtain ⟨_, _, ⟨ho1nl, ho1s, ho1m⟩, ⟨ho2nl, ho2s, ho2m⟩,
    ⟨ho3nl, ho3s, ho3m⟩, ⟨ho4nl, ho4s, ho4m⟩, _⟩ := id h
  unfold optionsOf
  rw [mkTemplate_optionLines q1 q2 o1 o2 o3 o4 L h]
  rw [List.filterMap_cons, optionOf_good 'A' o1 (by simp) ho1m]
  rw [List.filterMap_cons, optionOf_good 'B' o2 (by simp) ho2m]
  rw [List.filterMap_cons, optionOf_good 'C' o3 (by simp) ho3m]
  rw [List.filterMap_cons, optionOf_good 'D' o4 (by simp) ho4m]
  rw [ho1s, ho2s, ho3s, ho4s]
  rfl

theorem keyScan_template_none (o1 o2 o3 o4 : List Char) :
    keyScan ['A' :: ')' :: ' ' :: o1, 'B' :: ')' :: ' ' :: o2,
      'C' :: ')' :: ' ' :: o3, 'D' :: ')' :: ' ' :: o4] = none := by
  unfold keyScan
  rw [List.find?_eq_none]
  intro x hx
  simp at hx
  rcases hx with rfl | rfl | rfl | rfl <;>
    simp [chars_eng, chars_hin, hasPre]

theorem pyStrip_tANS (L : Char) (hL : isPySpace L = false) :
    pyStrip (tANS L) = tANS L := by
  apply pyStrip_eq_self
  · intro a ha
    rw [show tANS L = 'C' :: ("orrect: ".toList ++ [L]) from rfl] at ha
    simp at ha
    rw [← ha]
    decide
  · intro a ha
    rw [show tANS L = "Correct: ".toList ++ [L] from rfl,
      List.getLast?_append_of_ne_nil _ (by simp)] at ha
    simp at ha
    rw [← ha]
    exact hL

theorem answerValue_tANS (L : Char) (hL : isPySpace L = false) :
    answerValue (tANS L) = some [L] := by
  unfold answerValue
  have h : cutAfter engMarker (tANS L) = some (' ' :: [L]) := by
    have heq : engMarker ++ ' ' :: [L] = tANS L := by
      simp [tANS, chars_correct_sp, chars_eng]
    have := cutAfter_append_self engMarker (' ' :: [L]) (by simp [chars_eng])
    rwa [heq] at this
  rw [h]
  have hs : pyStrip (' ' :: [L]) = [L] := by
    unfold pyStrip
    rw [List.dropWhile_cons, if_pos (by decide), List.dropWhile_cons, if_neg (by simp [hL])]
    simp [List.dropWhile_cons, hL]
  show some (pyStrip (' ' :: [L])) = some [L]
  rw [hs]

theorem finalize_letter (question : List Char) (options : List (List Char))
    (L : Char) (hL : L = 'A' ∨ L = 'B' ∨ L = 'C' ∨ L = 'D') :
    finalize question options [L] =
      .ok ⟨question, options, L.toNat - 'A'.toNat⟩ := by
  rcases hL with rfl | rfl | rfl | rfl <;> rfl

theorem parse_mkTemplate (q1 q2 o1 o2 o3 o4 : List Char) (L : Char)
    (h : templateOk q1 q2 o1 o2 o3 o4 L) :
    parse (mkTemplate q1 q2 o1 o2 o3 o4 L) =
      .ok ⟨q1 ++ '\n' :: q2, [o1, o2, o3, o4], L.toNat - 'A'.toNat⟩ := by
  have hL := h.2.2.2.2.2.2
  have hLws : isPySpace L = false := by
    rcases hL with rfl | rfl | rfl | rfl <;> decide
  have hparts := mkTemplate_parts q1 q2 o1 o2 o3 o4 L h
  have hql := mkTemplate_questionLines q1 q2 o1 o2 o3 o4 L h
  have holines := mkTemplate_optionLines q1 q2 o1 o2 o3 o4 L h
  have hopts := mkTemplate_options q1 q2 o1 o2 o3 o4 L h
  have hcand : candidateLine (mkTemplate q1 q2 o1 o2 o3 o4 L) = tANS L := by
    unfold candidateLine fallbackLine
    rw [holines, keyScan_template_none, hparts]
    simp [pyStrip_tANS L hLws]
  unfold parse
  rw [hparts, hql, hopts, hcand, answerValue_tANS L hLws]
  simp only [List.length_cons, List.length_nil]
  rw [if_neg (by omega), if_neg (by omega), if_neg (by omega)]
  rw [finalize_letter _ _ L hL]
  simp [joinNl]

/-- C1: on the specification's end-to-end example the parser returns
exactly the documented `QuizQuestion`; and for every raw text matching the
documented template with letters A–D and delimiter-bearing options, it
returns a question with exactly 4 options whose `correct_index` lies in
`[0, 3]` and equals the position of the announced `Correct:` letter. -/
theorem parse_roundtrip :
    parse exampleRaw = .ok ⟨"Q1\nQ1-hi".toList,
      ["x / x-hi".toList, "y / y-hi".toList, "z / z-hi".toList,
       "w / w-hi".toList], 2⟩ ∧
    ∀ (q1 q2 o1 o2 o3 o4 : List Char) (L : Char),
      templateOk q1 q2 o1 o2 o3 o4 L →
      ∃ q : QuizQuestion, parse (mkTemplate q1 q2 o1 o2 o3 o4 L) = .ok q ∧
        q.options.length = 4 ∧ q.correct_index ≤ 3 ∧
        q.correct_index = L.toNat - 'A'.toNat := by
  constructor
  · rfl
  · intro q1 q2 o1 o2 o3 o4 L h
    have hb : ∀ M : Char, M = 'A' ∨ M = 'B' ∨ M = 'C' ∨ M = 'D' →
        M.toNat - 'A'.toNat ≤ 3 := by
      rintro M (rfl | rfl | rfl | rfl) <;> decide
    exact ⟨⟨q1 ++ '\n' :: q2, [o1, o2, o3, o4], L.toNat - 'A'.toNat⟩,
      parse_mkTemplate q1 q2 o1 o2 o3 o4 L h, rfl,
      hb L h.2.2.2.2.2.2, rfl⟩

/-- Witness for C1's universal part at a concrete template instance. -/
theorem parse_roundtrip_witness :
    ∃ q : QuizQuestion,
      parse (mkTemplate "Q1".toList "Q2".toList "a / b".toList "c / d".toList
        "e / f".toList "g / h".toList 'B') = .ok q ∧
      q.options.length = 4 ∧ q.correct_index ≤ 3 ∧
      q.correct_index = 'B'.toNat - 'A'.toNat :=
  parse_roundtrip.2 "Q1".toList "Q2".toList "a / b".toList "c / d".toList
    "e / f".toList "g / h".toList 'B' (by decide)

theorem optionOf_some {line t : List Char} (h : optionOf line = some t) :
    t = pyStrip (line.drop 3) ∧ t ≠ [] ∧ '/' ∈ t := by
  unfold optionOf at h
  split_ifs at h with h1 h2
  · obtain rfl : pyStrip (line.drop 3) = t := by injection h
    rcases Bool.and_eq_true .. |>.mp h2 with ⟨hne, hmem⟩
    refine ⟨rfl, ?_, (pyContains_single_iff '/' _).1 hmem⟩
    intro hnil
    rw [hnil] at hne
    simp at hne

theorem finalize_ok_inv {question v0 : List Char} {options : List (List Char)}
    {q : QuizQuestion} (h : finalize question options v0 = .ok q) :
    q.prompt = question ∧ q.options = options ∧ q.correct_index ≤ 3 := by
  unfold finalize at h
  split_ifs at h with hv
  · have hq : (⟨question, options,
        ((hindiToEng (normalizeAnswer v0)).headD 'A').toNat - 'A'.toNat⟩ :
        QuizQuestion) = q := by
      injection h
    subst hq
    refine ⟨rfl, rfl, ?_⟩
    rcases hv with hv | hv | hv | hv <;> rw [hv] <;>
      first
      | exact (by decide : (['A'].headD 'A').toNat - 'A'.toNat ≤ 3)
      | exact (by decide : (['B'].headD 'A').toNat - 'A'.toNat ≤ 3)
      | exact (by decide : (['C'].headD 'A').toNat - 'A'.toNat ≤ 3)
      | exact (by decide : (['D'].headD 'A').toNat - 'A'.toNat ≤ 3)

theorem parse_ok_inv {raw : List Char} {q : QuizQuestion}
    (h : parse raw = .ok q) :
    (optionsOf raw).length = 4 ∧ q.options = optionsOf raw ∧
    q.prompt = joinNl (questionLinesOf raw) ∧ q.correct_index ≤ 3 ∧
    ∃ v0, answerValue (candidateLine raw) = some v0 ∧
      finalize (joinNl (questionLinesOf raw)) (optionsOf raw) v0 = .ok q := by
  unfold parse at h
  split_ifs at h with h1 h2 h3
  rcases hv : answerValue (candidateLine raw) with _ | v0
  · rw [hv] at h
    exact absurd h (by simp)
  · rw [hv] at h
    obtain ⟨hp, ho, hi⟩ := finalize_ok_inv h
    exact ⟨by omega, ho, hp, hi, v0, rfl, h⟩

/-- C3: a line of the options block is collected iff it starts with one of
the exact markers `"A) "`–`"D) "` and the text after the 3-character marker
is non-empty and contains `'/'`; collection keeps the qualifying lines in
their original order (as the stripped text after the marker) and drops all
others; and the parser fails with the option-count rejection unless exactly
4 lines qualify. -/
theorem option_collection :
    (∀ line : List Char,
      (∃ t, optionOf line = some t) ↔
        ((hasPre "A) ".toList line = true ∨ hasPre "B) ".toList line = true ∨
          hasPre "C) ".toList line = true ∨ hasPre "D) ".toList line = true) ∧
          line.drop 3 ≠ [] ∧ '/' ∈ line.drop 3)) ∧
    (∀ lines : List (List Char),
      lines.filterMap optionOf =
        (lines.filter (fun l => (optionOf l).isSome)).map
          (fun l => pyStrip (l.drop 3))) ∧
    (∀ raw : List Char, 2 ≤ (partsOf raw).length →
      (questionLinesOf raw).length = 2 → (optionsOf raw).length ≠ 4 →
      parse raw = .error .invalidOptionCount) := by
  refine ⟨?_, ?_, ?_⟩
  · intro line
    constructor
    · rintro ⟨t, ht⟩
      unfold optionOf at ht
      split_ifs at ht with h1 h2
      · rcases Bool.and_eq_true .. |>.mp h2 with ⟨hne, hmem⟩
        have hm : '/' ∈ pyStrip (line.drop 3) :=
          (pyContains_single_iff '/' _).1 hmem
        have hm' : '/' ∈ line.drop 3 := (pyStrip_sublist _).mem hm
        rcases Bool.or_eq_true .. |>.mp h1 with h | h
        · rcases Bool.or_eq_true .. |>.mp h with h | h
          · rcases Bool.or_eq_true .. |>.mp h with h | h
            · exact ⟨Or.inl h, List.ne_nil_of_mem hm', hm'⟩
            · exact ⟨Or.inr (Or.inl h), List.ne_nil_of_mem hm', hm'⟩
          · exact ⟨Or.inr (Or.inr (Or.inl h)), List.ne_nil_of_mem hm', hm'⟩
        · exact ⟨Or.inr (Or.inr (Or.inr h)), List.ne_nil_of_mem hm', hm'⟩
    · rintro ⟨hmark, hne, hmem⟩
      have hm : '/' ∈ pyStrip (line.drop 3) :=
        (mem_pyStrip_iff '/' (by decide) _).2 hmem
      refine ⟨pyStrip (line.drop 3), ?_⟩
      unfold optionOf
      rw [if_pos (by rcases hmark with h | h | h | h <;> rw [h] <;> simp),
        if_pos (by simp [List.isEmpty_iff, List.ne_nil_of_mem hm,
          (pyContains_single_iff '/' _).2 hm])]
  · intro lines
    induction lines with
    | nil => rfl
    | cons l ls ih =>
      rcases hl : optionOf l with _ | t
      · rw [List.filterMap_cons, hl, List.filter_cons, if_neg (by simp [hl])]
        exact ih
      · rw [List.filterMap_cons, hl, List.filter_cons, if_pos (by simp [hl]),
          List.map_cons, ih, (optionOf_some hl).1]
  · intro raw h1 h2 h3
    unfold parse
    rw [if_neg (by omega), if_neg (by omega), if_pos h3]

/-- Witness for C3's rejection part at a concrete three-option input. -/
theorem option_collection_witness :
    parse ("Q\nQh\n\nA) a / b\nB) c / d\nC) e / f\n\nCorrect: B".toList) =
      .error .invalidOptionCount :=
  option_collection.2.2 _ (by decide) (by decide) (by decide)

/-- C4 counterexample: the parser accepts options that contain `'/'` but
not the spaced delimiter `" / "`, so the claimed invariant (every option
contains `" / "`) fails on this accepted input. -/
theorem parse_ok_options_counterexample :
    parse slashRaw = .ok ⟨"Q\nQh".toList,
      ["a/b".toList, "c/d".toList, "e/f".toList, "g/h".toList], 0⟩ ∧
    pyContains " / ".toList "a/b".toList = false :=
  ⟨rfl, rfl⟩

/-- C4 (amended): every `QuizQuestion` returned by the parser has exactly 4
options, each non-empty and containing the delimiter character `'/'` (the
source validates only the bare slash, not the spaced `" / "`), and a
`correct_index` in `[0, 3]`. -/
theorem parse_ok_options_invariant (raw : List Char) (q : QuizQuestion)
    (h : parse raw = .ok q) :
    q.options.length = 4 ∧ (∀ o ∈ q.options, o ≠ [] ∧ '/' ∈ o) ∧
    q.correct_index ≤ 3 := by
  obtain ⟨h4, ho, _, hi, _⟩ := parse_ok_inv h
  refine ⟨by rw [ho]; exact h4, ?_, hi⟩
  intro o hmem
  rw [ho] at hmem
  unfold optionsOf at hmem
  obtain ⟨l, _, hsome⟩ := List.mem_filterMap.1 hmem
  obtain ⟨_, hne, hm⟩ := optionOf_some hsome
  exact ⟨hne, hm⟩

/-- Witness for the amended C4 at a concrete accepted input. -/
theorem parse_ok_options_invariant_witness :
    (⟨"Q\nQh".toList,
      ["a/b".toList, "c/d".toList, "e/f".toList, "g/h".toList], 0⟩ :
        QuizQuestion).options.length = 4 ∧
    (∀ o ∈ (⟨"Q\nQh".toList,
      ["a/b".toList, "c/d".toList, "e/f".toList, "g/h".toList], 0⟩ :
        QuizQuestion).options, o ≠ [] ∧ '/' ∈ o) ∧
    (⟨"Q\nQh".toList,
      ["a/b".toList, "c/d".toList, "e/f".toList, "g/h".toList], 0⟩ :
        QuizQuestion).correct_index ≤ 3 :=
  parse_ok_options_invariant slashRaw _ rfl

theorem mkTemplate_parts_gen (q1 q2 o1 o2 o3 o4 : List Char) (L : Char)
    (hq1nl : '\n' ∉ q1) (hq2nl : '\n' ∉ q2) (hq2n : q2 ≠ [])
    (ho1nl : '\n' ∉ o1) (ho2nl : '\n' ∉ o2) (ho3nl : '\n' ∉ o3)
    (ho4nl : '\n' ∉ o4) (hLn : ('\n' : Char) ∉ tANS L) :
    partsOf (mkTemplate q1 q2 o1 o2 o3 o4 L) =
      [tQ q1 q2, tOB o1 o2 o3 o4, tANS L] := by
  unfold partsOf
  rw [mkTemplate_eq,
    splitNN_sepFree_append _ _ (sepFree_tQ q1 q2 hq1nl hq2nl hq2n),
    splitNN_sepFree_append _ _ (sepFree_tOB o1 o2 o3 o4 ho1nl ho2nl ho3nl ho4nl),
    splitNN_single _ hLn]

theorem mkTemplate_questionLines_gen (q1 q2 o1 o2 o3 o4 : List Char) (L : Char)
    (hq1n : q1 ≠ []) (hq1nl : '\n' ∉ q1) (hq1s : pyStrip q1 = q1)
    (hq2n : q2 ≠ []) (hq2nl : '\n' ∉ q2) (hq2s : pyStrip q2 = q2)
    (ho1nl : '\n' ∉ o1) (ho2nl : '\n' ∉ o2) (ho3nl : '\n' ∉ o3)
    (ho4nl : '\n' ∉ o4) (hLn : ('\n' : Char) ∉ tANS L) :
    questionLinesOf (mkTemplate q1 q2 o1 o2 o3 o4 L) = [q1, q2] := by
  unfold questionLinesOf
  rw [mkTemplate_parts_gen q1 q2 o1 o2 o3 o4 L hq1nl hq2nl hq2n
    ho1nl ho2nl ho3nl ho4nl hLn]
  show splitChar '\n' (pyStrip (tQ q1 q2)) = [q1, q2]
  rw [pyStrip_tQ q1 q2 hq1s hq1n hq2s hq2n]
  unfold tQ
  rw [splitChar_line q1 _ hq1nl, splitChar_single '\n' q2 hq2nl]

theorem mkTemplate_optionLines_gen (q1 q2 o1 o2 o3 o4 : List Char) (L : Char)
    (hq1nl : '\n' ∉ q1) (hq2nl : '\n' ∉ q2) (hq2n : q2 ≠ [])
    (ho1nl : '\n' ∉ o1) (ho2nl : '\n' ∉ o2) (ho3nl : '\n' ∉ o3)
    (ho4nl : '\n' ∉ o4) (ho4s : pyStrip o4 = o4) (ho4n : o4 ≠ [])
    (hLn : ('\n' : Char) ∉ tANS L) :
    optionLinesOf (mkTemplate q1 q2 o1 o2 o3 o4 L) =
      ['A' :: ')' :: ' ' :: o1, 'B' :: ')' :: ' ' :: o2,
       'C' :: ')' :: ' ' :: o3, 'D' :: ')' :: ' ' :: o4] := by
  unfold optionLinesOf
  rw [mkTemplate_parts_gen q1 q2 o1 o2 o3 o4 L hq1nl hq2nl hq2n
    ho1nl ho2nl ho3nl ho4nl hLn]
  show splitChar '\n' (pyStrip (tOB o1 o2 o3 o4)) =
    ['A' :: ')' :: ' ' :: o1, 'B' :: ')' :: ' ' :: o2,
     'C' :: ')' :: ' ' :: o3, 'D' :: ')' :: ' ' :: o4]
  rw [pyStrip_tOB o1 o2 o3 o4 ho4s ho4n]
  have hsh : tOB o1 o2 o3 o4 = ("A) ".toList ++ o1) ++ '\n' ::
      (("B) ".toList ++ o2) ++ '\n' ::
        (("C) ".toList ++ o3) ++ '\n' :: ("D) ".toList ++ o4))) := by
    simp [tOB, List.append_assoc]
  rw [hsh, splitChar_line _ _ (by simp [chars_mA, ho1nl]),
    splitChar_line _ _ (by simp [chars_mB, ho2nl]),
    splitChar_line _ _ (by simp [chars_mC, ho3nl]),
    splitChar_single '\n' _ (by simp [chars_mD, ho4nl])]
  simp [chars_mA, chars_mB, chars_mC, chars_mD]

theorem optionOf_no_slash (X : Char) (o : List Char) (h : '/' ∉ o) :
    optionOf (X :: ')' :: ' ' :: o) = none := by
  have hm : '/' ∉ pyStrip ((X :: ')' :: ' ' :: o).drop 3) := by
    intro hmem
    exact h ((mem_pyStrip_iff '/' (by decide) _).1 (by simpa using hmem))
  unfold optionOf
  split_ifs with h1 h2
  · exact absurd ((pyContains_single_iff '/' _).1
      (Bool.and_eq_true .. |>.mp h2).2) hm
  · rfl
  · rfl

theorem getD_one_mem {l : List (List Char)} (h : 1 < l.length) :
    l.getD 1 [] ∈ l := by
  rw [List.getD_eq_getElem l [] h]
  exact List.getElem_mem h

theorem getLastD_mem_self (l : List (List Char)) (h : l ≠ []) :
    l.getLastD [] ∈ l := by
  cases l with
  | nil => exact absurd rfl h
  | cons a t =>
    rw [List.getLastD_cons]
    exact List.getLastD_mem_cons t a

theorem optionLine_isInfix (raw : List Char) (h2 : 2 ≤ (partsOf raw).length)
    (l : List Char) (hl : l ∈ optionLinesOf raw) : l <:+: raw := by
  have h1 : (partsOf raw).getD 1 [] ∈ partsOf raw := getD_one_mem (by omega)
  exact ((mem_splitChar_isInfix '\n' _ l hl).trans (pyStrip_isInfix _)).trans
    (mem_splitNN_isInfix raw _ h1)

theorem candidateLine_isInfix (raw : List Char)
    (h2 : 2 ≤ (partsOf raw).length) : candidateLine raw <:+: raw := by
  unfold candidateLine
  rcases hk : keyScan (optionLinesOf raw) with _ | l
  · rw [Option.getD_none]
    unfold fallbackLine
    split_ifs with h3
    · exact (pyStrip_isInfix _).trans
        (mem_splitNN_isInfix raw _ (getLastD_mem_self _ (splitNN_ne_nil raw)))
    · exact (pyStrip_isInfix _).trans
        (optionLine_isInfix raw h2 _ (getLastD_mem_self _ (splitChar_ne_nil '\n' _)))
  · rw [Option.getD_some]
    unfold keyScan at hk
    exact optionLine_isInfix raw h2 l
      (List.mem_reverse.1 (List.mem_of_find?_eq_some hk))

/-- C2: each malformed-input class is rejected with its corresponding typed
failure — fewer than 2 blank-line-separated parts, a question block without
exactly 2 lines, a qualifying-option count other than 4, a template whose
fourth option line lacks the delimiter (collected count 3), raw text
containing no answer-key marker at all, and a normalized answer value
outside A–D — and no case yields a partial question: success always carries
exactly 4 options and an index in `[0, 3]`. -/
theorem parse_rejection_complete :
    (∀ raw : List Char, (partsOf raw).length < 2 →
      parse raw = .error .malformedStructure) ∧
    (∀ raw : List Char, 2 ≤ (partsOf raw).length →
      (questionLinesOf raw).length ≠ 2 →
      parse raw = .error .malformedQuestion) ∧
    (∀ raw : List Char, 2 ≤ (partsOf raw).length →
      (questionLinesOf raw).length = 2 → (optionsOf raw).length ≠ 4 →
      parse raw = .error .invalidOptionCount) ∧
    (∀ (q1 q2 o1 o2 o3 o4 : List Char) (L : Char),
      q1 ≠ [] → '\n' ∉ q1 → pyStrip q1 = q1 →
      q2 ≠ [] → '\n' ∉ q2 → pyStrip q2 = q2 →
      '\n' ∉ o1 → pyStrip o1 = o1 → '/' ∈ o1 →
      '\n' ∉ o2 → pyStrip o2 = o2 → '/' ∈ o2 →
      '\n' ∉ o3 → pyStrip o3 = o3 → '/' ∈ o3 →
      '\n' ∉ o4 → pyStrip o4 = o4 → o4 ≠ [] → '/' ∉ o4 →
      (L = 'A' ∨ L = 'B' ∨ L = 'C' ∨ L = 'D') →
      parse (mkTemplate q1 q2 o1 o2 o3 o4 L) = .error .invalidOptionCount) ∧
    (∀ raw : List Char, 2 ≤ (partsOf raw).length →
      (questionLinesOf raw).length = 2 → (optionsOf raw).length = 4 →
      pyContains engMarker raw = false → pyContains hinMarker raw = false →
      parse raw = .error .missingAnswerKey) ∧
    (∀ (raw v0 : List Char), 2 ≤ (partsOf raw).length →
      (questionLinesOf raw).length = 2 → (optionsOf raw).length = 4 →
      answerValue (candidateLine raw) = some v0 →
      ¬(hindiToEng (normalizeAnswer v0) = ['A'] ∨
        hindiToEng (normalizeAnswer v0) = ['B'] ∨
        hindiToEng (normalizeAnswer v0) = ['C'] ∨
        hindiToEng (normalizeAnswer v0) = ['D']) →
      parse raw = .error .invalidAnswerLetter) ∧
    (∀ (raw : List Char) (q : QuizQuestion), parse raw = .ok q →
      q.options.length = 4 ∧ q.correct_index ≤ 3) := by
  refine ⟨?_, ?_, ?_, ?_, ?_, ?_, ?_⟩
  · intro raw h
    unfold parse
    rw [if_pos h]
  · intro raw h1 h2
    unfold parse
    rw [if_neg (by omega), if_pos h2]
  · intro raw h1 h2 h3
    unfold parse
    rw [if_neg (by omega), if_neg (by omega), if_pos h3]
  · intro q1 q2 o1 o2 o3 o4 L hq1n hq1nl hq1s hq2n hq2nl hq2s
      ho1nl ho1s ho1m ho2nl ho2s ho2m ho3nl ho3s ho3m
      ho4nl ho4s ho4n ho4no hL
    have hLn : ('\n' : Char) ∉ tANS L := by
      rcases hL with rfl | rfl | rfl | rfl <;> decide
    have hparts := mkTemplate_parts_gen q1 q2 o1 o2 o3 o4 L hq1nl hq2nl hq2n
      ho1nl ho2nl ho3nl ho4nl hLn
    have hql := mkTemplate_questionLines_gen q1 q2 o1 o2 o3 o4 L hq1n hq1nl
      hq1s hq2n hq2nl hq2s ho1nl ho2nl ho3nl ho4nl hLn
    have hol := mkTemplate_optionLines_gen q1 q2 o1 o2 o3 o4 L hq1nl hq2nl
      hq2n ho1nl ho2nl ho3nl ho4nl ho4s ho4n hLn
    have hopts : optionsOf (mkTemplate q1 q2 o1 o2 o3 o4 L) = [o1, o2, o3] := by
      unfold optionsOf
      rw [hol, List.filterMap_cons, optionOf_good 'A' o1 (by simp) ho1m,
        List.filterMap_cons, optionOf_good 'B' o2 (by simp) ho2m,
        List.filterMap_cons, optionOf_good 'C' o3 (by simp) ho3m,
        List.filterMap_cons, optionOf_no_slash 'D' o4 ho4no,
        ho1s, ho2s, ho3s]
      rfl
    unfold parse
    rw [hparts, hql, hopts]
    simp
  · intro raw h1 h2 h3 heng hhin
    have hinf := candidateLine_isInfix raw h1
    have he : cutAfter engMarker (candidateLine raw) = none := by
      rcases hca : cutAfter engMarker (candidateLine raw) with _ | t
      · rfl
      · exfalso
        have hsome : (cutAfter engMarker (candidateLine raw)).isSome = true := by
          rw [hca]; rfl
        have : pyContains engMarker raw = true :=
          (pyContains_iff_isInfix engMarker raw (by simp [chars_eng])).2
            (((cutAfter_isSome_iff engMarker _ (by simp [chars_eng])).1
              hsome).trans hinf)
        rw [this] at heng
        exact absurd heng (by simp)
    have hh : cutAfter hinMarker (candidateLine raw) = none := by
      rcases hca : cutAfter hinMarker (candidateLine raw) with _ | t
      · rfl
      · exfalso
        have hsome : (cutAfter hinMarker (candidateLine raw)).isSome = true := by
          rw [hca]; rfl
        have : pyContains hinMarker raw = true :=
          (pyContains_iff_isInfix hinMarker raw (by simp [chars_hin])).2
            (((cutAfter_isSome_iff hinMarker _ (by simp [chars_hin])).1
              hsome).trans hinf)
        rw [this] at hhin
        exact absurd hhin (by simp)
    have hAV : answerValue (candidateLine raw) = none := by
      unfold answerValue
      rw [he, hh]
    unfold parse
    rw [if_neg (by omega), if_neg (by omega), if_neg (by omega), hAV]
  · intro raw v0 h1 h2 h3 hv hno
    unfold parse
    rw [if_neg (by omega), if_neg (by omega), if_neg (by omega), hv]
    have hfin : finalize (joinNl (questionLinesOf raw)) (optionsOf raw) v0 =
        Except.error ParseFailure.invalidAnswerLetter := by
      unfold finalize
      rw [if_neg hno]
    exact hfin
  · intro raw q h
    obtain ⟨h4, ho, _, hi, _⟩ := parse_ok_inv h
    exact ⟨by rw [ho]; exact h4, hi⟩

/-- Witness for C2 at concrete members of three rejection classes. -/
theorem parse_rejection_complete_witness :
    parse [] = .error .malformedStructure ∧
    parse ("Q\nQh\n\nA) a / b\nB) c / d\nC) e / f\nD) g / h" ++
      "\n\nno answer key").toList = .error .missingAnswerKey ∧
    parse (mkTemplate "Q".toList "Qh".toList "a / b".toList "c / d".toList
      "e / f".toList "gh".toList 'A') = .error .invalidOptionCount :=
  ⟨parse_rejection_complete.1 [] (by decide),
   parse_rejection_complete.2.2.2.2.1 _ (by decide) (by decide) (by decide)
     (by decide) (by decide),
   parse_rejection_complete.2.2.2.1 _ _ _ _ _ _ 'A' (by decide) (by decide)
     (by decide) (by decide) (by decide) (by decide) (by decide) (by decide)
     (by decide) (by decide) (by decide) (by decide) (by decide) (by decide)
     (by decide) (by decide) (by decide) (by decide) (by decide)
     (by decide)⟩

theorem cutBefore_single_none (c : Char) (s : List Char) :
    cutBefore [c] s = none ↔ c ∉ s := by
  rw [← cutBefore_single_isSome]
  cases cutBefore [c] s <;> simp

/-- C5 counterexample: on this input no line of the scanned options block
matches either marker, yet parsing succeeds via the third-segment fallback —
so "parse fails with MissingAnswerKey when no matching line exists in the
scanned block" is false. -/
theorem answer_key_scan_counterexample :
    keyScan (optionLinesOf c5Raw) = none ∧
    parse c5Raw = .ok ⟨"Q\nQh".toList,
      ["p / q".toList, "r / s".toList, "t / u".toList, "v / w".toList], 3⟩ :=
  ⟨rfl, rfl⟩

/-- C5 (amended): the reverse scan over the options block takes precedence —
its match, when present, is the candidate line; otherwise the fallback
(third-segment text when there are more than 2 parts, else the last option
line) is used; and parsing fails with the missing-answer-key rejection
exactly when the selected candidate contains neither `"Correct:"` nor
`"सही उत्तर:"` as a substring. -/
theorem answer_key_selection :
    (∀ (raw l : List Char), keyScan (optionLinesOf raw) = some l →
      candidateLine raw = l) ∧
    (∀ raw : List Char, keyScan (optionLinesOf raw) = none →
      candidateLine raw = fallbackLine raw) ∧
    (∀ raw : List Char, 2 ≤ (partsOf raw).length →
      (questionLinesOf raw).length = 2 → (optionsOf raw).length = 4 →
      answerValue (candidateLine raw) = none →
      parse raw = .error .missingAnswerKey) ∧
    (∀ line : List Char, answerValue line = none ↔
      (pyContains engMarker line = false ∧ pyContains hinMarker line = false)) := by
  refine ⟨?_, ?_, ?_, ?_⟩
  · intro raw l h
    unfold candidateLine
    rw [h, Option.getD_some]
  · intro raw h
    unfold candidateLine
    rw [h, Option.getD_none]
  · intro raw h1 h2 h3 hAV
    unfold parse
    rw [if_neg (by omega), if_neg (by omega), if_neg (by omega), hAV]
  · intro line
    constructor
    · intro h
      rcases he : cutAfter engMarker line with _ | t
      · rcases hh : cutAfter hinMarker line with _ | t2
        · exact ⟨by simp [pyContains, he], by simp [pyContains, hh]⟩
        · exfalso
          unfold answerValue at h
          rw [he, hh] at h
          simp at h
      · exfalso
        unfold answerValue at h
        rw [he] at h
        simp at h
    · rintro ⟨h1, h2⟩
      have he : cutAfter engMarker line = none := by
        unfold pyContains at h1
        rcases hca : cutAfter engMarker line with _ | t
        · rfl
        · rw [hca] at h1
          simp at h1
      have hh : cutAfter hinMarker line = none := by
        unfold pyContains at h2
        rcases hca : cutAfter hinMarker line with _ | t
        · rfl
        · rw [hca] at h2
          simp at h2
      unfold answerValue
      rw [he, hh]

/-- Witness for the amended C5 at a concrete input with no marker anywhere. -/
theorem answer_key_selection_witness :
    parse ("X\nY\n\nA) 1 / 2\nB) 3 / 4\nC) 5 / 6\nD) 7 / 8" ++
      "\n\nnothing here").toList = .error .missingAnswerKey :=
  answer_key_selection.2.2.1 _ (by decide) (by decide) (by decide) (by decide)

theorem normalize_eq_spec (v : List Char) :
    normalizeAnswer (pyStrip v) = specNormalizeAnswer v := by
  have hss : pyStrip (pyStrip v) = pyStrip v := pyStrip_idem v
  unfold normalizeAnswer specNormalizeAnswer cutStep specCut
  rcases hcs : cutBefore ['/'] (pyStrip v) with _ | b
  · simp only [hcs, Option.getD_none]
    rcases hcp : cutBefore [')'] (pyStrip v) with _ | b2
    · simp only [hcp, Option.getD_none]
      exact hss.symm
    · simp only [hcp, Option.getD_some]
  · simp only [hcs, Option.getD_some]
    by_cases hmem : ')' ∈ b
    · obtain ⟨b1, b2, hb1, hb2, heq⟩ :=
        cutBefore_pyStrip_comm ')' (by decide) b hmem
      simp only [hb1, hb2, Option.getD_some]
      exact heq.symm
    · have h1 : cutBefore [')'] (pyStrip b) = none := by
        rw [cutBefore_single_none]
        intro hm
        exact hmem ((mem_pyStrip_iff ')' (by decide) b).1 hm)
      have h2 : cutBefore [')'] b = none := by
        rw [cutBefore_single_none]
        exact hmem
      simp only [h1, h2, Option.getD_none]

/-- C6: the source's normalization of the extracted answer value (trim,
cut-before-`/` with re-trim, cut-before-`)` with re-trim) agrees with the
specified trim / cut `/` / cut `)` / trim pipeline on every input; the four
secondary-language letter names translate to their canonical letters; and at
the answer stage the parser rejects with the invalid-letter failure unless
the final value is exactly one of A–D, in which case `correct_index` is the
letter's position. -/
theorem answer_value_normalization :
    (∀ v : List Char, normalizeAnswer (pyStrip v) = specNormalizeAnswer v) ∧
    (hindiToEng "ए".toList = ['A'] ∧ hindiToEng "बी".toList = ['B'] ∧
      hindiToEng "सी".toList = ['C'] ∧ hindiToEng "डी".toList = ['D']) ∧
    (∀ (raw v0 : List Char), 2 ≤ (partsOf raw).length →
      (questionLinesOf raw).length = 2 → (optionsOf raw).length = 4 →
      answerValue (candidateLine raw) = some v0 →
      ((¬(hindiToEng (normalizeAnswer v0) = ['A'] ∨
          hindiToEng (normalizeAnswer v0) = ['B'] ∨
          hindiToEng (normalizeAnswer v0) = ['C'] ∨
          hindiToEng (normalizeAnswer v0) = ['D']) →
        parse raw = .error .invalidAnswerLetter) ∧
       (∀ c : Char, (c = 'A' ∨ c = 'B' ∨ c = 'C' ∨ c = 'D') →
         hindiToEng (normalizeAnswer v0) = [c] →
         parse raw = .ok ⟨joinNl (questionLinesOf raw), optionsOf raw,
           c.toNat - 'A'.toNat⟩))) := by
  refine ⟨normalize_eq_spec, ⟨rfl, rfl, rfl, rfl⟩, ?_⟩
  intro raw v0 h1 h2 h3 hv
  constructor
  · intro hno
    unfold parse
    rw [if_neg (by omega), if_neg (by omega), if_neg (by omega), hv]
    have hfin : finalize (joinNl (questionLinesOf raw)) (optionsOf raw) v0 =
        Except.error ParseFailure.invalidAnswerLetter := by
      unfold finalize
      rw [if_neg hno]
    exact hfin
  · intro c hc hEq
    unfold parse
    rw [if_neg (by omega), if_neg (by omega), if_neg (by omega), hv]
    have hfin : finalize (joinNl (questionLinesOf raw)) (optionsOf raw) v0 =
        .ok ⟨joinNl (questionLinesOf raw), optionsOf raw,
          c.toNat - 'A'.toNat⟩ := by
      unfold finalize
      rw [hEq, if_pos (by rcases hc with rfl | rfl | rfl | rfl <;> simp)]
      simp
    exact hfin

/-- Witness for C6 at an answer line carrying a trailing echoed option. -/
theorem answer_value_normalization_witness :
    parse ("Q\nQh\n\nA) a / b\nB) c / d\nC) e / f\nD) g / h" ++
      "\n\nCorrect: D) g / h").toList =
      .ok ⟨joinNl (questionLinesOf ("Q\nQh\n\nA) a / b\nB) c / d" ++
        "\nC) e / f\nD) g / h\n\nCorrect: D) g / h").toList),
        optionsOf ("Q\nQh\n\nA) a / b\nB) c / d\nC) e / f\nD) g / h" ++
          "\n\nCorrect: D) g / h").toList, 'D'.toNat - 'A'.toNat⟩ :=
  ((answer_value_normalization.2.2 _ "D) g / h".toList (by decide) (by decide)
    (by decide) (by decide)).2 'D' (Or.inr (Or.inr (Or.inr rfl))) (by decide))
